import Mathlib

/-!
Shallow embedding of the source-resolution layer of `relaxed-poetry`:
the repository `Pool` (src/poetry/repositories/pool.py) and the
`LegacyRepository` index client with its `Page` parser
(src/poetry/repositories/legacy_repository.py).

External collaborators (the semantic-version library, the HTML parser,
the HTTP transport) are modelled as opaque data/functions exactly at the
interface the source uses; every algorithm of the source itself
(tier bookkeeping, lookup-table updates, scan/fallback order,
prerelease filtering, caching, dedup of parsed versions) is translated
directly from the Python code.
-/

namespace RPoetry

/-- Opaque `poetry.core` version value: comparable by parsed representation
(equality on `vid`), carries the `is_unstable()` predicate. -/
structure Version where
  vid : Nat
  unstable : Bool
deriving DecidableEq, Repr

/-- Opaque `poetry.core` version constraint, at the interface used by the
source: `allows(version)`, `is_any()`, `isinstance(_, VersionRange)` together
with the range's stated `min`/`max` bounds (`asRange`), and `str(constraint)`
(`text`), used for cache keys. -/
structure VersionConstraint where
  allows : Version → Bool
  isAny : Bool
  asRange : Option (Option Version × Option Version)
  text : String

/-- `parse_constraint("*")` from `poetry.core`: the any-version range
`VersionRange(None, None)`. -/
def anyConstraint : VersionConstraint :=
  ⟨fun _ => true, true, some (none, none), "*"⟩

/-- Constraint normalization at the top of `LegacyRepository.find_packages`:
`None` becomes the parsed `"*"`; an already-parsed constraint is kept. -/
def normalizeConstraint : Option VersionConstraint → VersionConstraint
  | some c => c
  | none => anyConstraint

/-- A dependency as consumed by the source: name, optional parsed constraint,
optional `source_name`, and the `allows_prereleases()` flag. -/
structure Dependency where
  name : String
  constraint : Option VersionConstraint
  sourceName : Option String
  allowsPrereleases : Bool

/-- A resolved package: name, version and provenance stamped by the source. -/
structure Package where
  name : String
  version : Version
  sourceType : String
  sourceReference : String
  sourceUrl : String
deriving DecidableEq, Repr

/-- An index client as seen by the pool: its `name` attribute plus the
`find_packages` / `package` contract. `packageFn` returns `none` where the
Python client raises `PackageNotFound`. -/
structure Repo where
  name : Option String
  findPackagesFn : Dependency → List Package
  packageFn : String → String → Option Package

/-- Python's `str.lower()` for the ASCII repository names in play (defined
over the character list so that it reduces definitionally). -/
def strLower (s : String) : String := ⟨s.data.map Char.toLower⟩

/-- Python's `name.replace(".", "-")` (single-character pattern, defined over
the character list so that it reduces definitionally). -/
def dotsToDashes (s : String) : String :=
  ⟨s.data.map (fun c => if c = '.' then '-' else c)⟩

/-! ### Python `dict` (string-keyed, insertion ordered) as an association list -/

/-- `d[k]` / `d.get(k)`: value at the key, if present.  (A Python dict holds
each key at most once, so "first match" is exact.) -/
def dictGet (d : List (Option String × Nat)) (k : Option String) : Option Nat :=
  match d with
  | [] => none
  | q :: t => if q.1 = k then some q.2 else dictGet t k

/-- `d[k] = v`: update in place when the key exists, else append (insertion
order preserved, as in a Python dict). -/
def dictSet (d : List (Option String × Nat)) (k : Option String) (v : Nat) :
    List (Option String × Nat) :=
  match d with
  | [] => [(k, v)]
  | q :: t => if q.1 = k then (k, v) :: t else q :: dictSet t k v

/-- `list.insert(i, a)` (appends when `i ≥ len`). -/
def insertAt (l : List α) (i : Nat) (a : α) : List α :=
  l.take i ++ a :: l.drop i

/-- `del l[i]` (no-op when `i ≥ len`; Python would raise `IndexError` there,
which no claim exercises). -/
def removeAt (l : List α) (i : Nat) : List α :=
  l.take i ++ l.drop (i + 1)

/-! ### Pool (src/poetry/repositories/pool.py) -/

/-- `Pool` state: `_lookup`, `_repositories`, `_default`,
`_has_primary_repositories`, `_secondary_start_idx`,
`_ignore_repository_names`, `_parent`.  The `_packages` accumulation list is
not modelled: it is write-only state that never influences any result. -/
inductive Pool where
  | mk (lookup : List (Option String × Nat)) (repositories : List Repo)
       (hasDefault : Bool) (hasPrimaryRepositories : Bool)
       (secondaryStartIdx : Option Nat) (ignoreRepositoryNames : Bool)
       (parent : Option Pool)

def Pool.lookup : Pool → List (Option String × Nat)
  | .mk l _ _ _ _ _ _ => l

def Pool.repositories : Pool → List Repo
  | .mk _ r _ _ _ _ _ => r

def Pool.hasDefault : Pool → Bool
  | .mk _ _ d _ _ _ _ => d

def Pool.hasPrimaryRepositories : Pool → Bool
  | .mk _ _ _ h _ _ _ => h

def Pool.secondaryStartIdx : Pool → Option Nat
  | .mk _ _ _ _ s _ _ => s

def Pool.ignoreRepositoryNames : Pool → Bool
  | .mk _ _ _ _ _ i _ => i

def Pool.parent : Pool → Option Pool
  | .mk _ _ _ _ _ _ p => p

/-- `Pool.add_repository(repository, default, secondary)`.  Returns
`Except` because the duplicate-default case raises `ValueError`. -/
def Pool.addRepository (p : Pool) (r : Repo) (dflt : Bool) (secondary : Bool) :
    Except String Pool :=
  match p with
  | .mk lookup repos hasDef hasPrim sIdx ign parent =>
    let rname : Option String := r.name.map strLower
    if dflt then
      if hasDef then
        .error "Only one repository can be the default"
      else
        let repos1 := insertAt repos 0 r
        let lookup1 := lookup.map (fun q => (q.1, q.2 + 1))
        let sIdx1 := sIdx.map (fun i => i + 1)
        .ok (.mk (dictSet lookup1 rname 0) repos1 true hasPrim sIdx1 ign parent)
    else if secondary then
      let sIdx1 := match sIdx with
        | none => some repos.length
        | some i => some i
      let repos1 := repos ++ [r]
      .ok (.mk (dictSet lookup rname (repos1.length - 1)) repos1 hasDef hasPrim
        sIdx1 ign parent)
    else
      match sIdx with
      | none =>
        let repos1 := repos ++ [r]
        .ok (.mk (dictSet lookup rname (repos1.length - 1)) repos1 hasDef true
          none ign parent)
      | some b =>
        let repos1 := insertAt repos b r
        let lookup1 := lookup.map (fun q => if q.2 < b then q else (q.1, q.2 + 1))
        .ok (.mk (dictSet lookup1 rname b) repos1 hasDef true (some (b + 1)) ign
          parent)

/-- `Pool.remove_repository(name)`: deletes only the list slot at the looked-up
index; the lookup table itself is left untouched (as in the source). -/
def Pool.removeRepository (p : Pool) (repositoryName : Option String) : Pool :=
  match p with
  | .mk lookup repos hasDef hasPrim sIdx ign parent =>
    let n := repositoryName.map strLower
    match dictGet lookup n with
    | some idx => .mk lookup (removeAt repos idx) hasDef hasPrim sIdx ign parent
    | none => .mk lookup repos hasDef hasPrim sIdx ign parent

/-- Render an optional repository name the way a Python f-string renders it. -/
def optStr : Option String → String
  | some s => s
  | none => "None"

/-- Result of `Pool.package`: a found package, a raised `PackageNotFound`, or a
raised `ValueError`. -/
inductive PackageResult where
  | found (pkg : Package)
  | packageNotFound (msg : String)
  | valueError (msg : String)

/-- The unnamed-scan loop of `Pool.package`: try each client in order,
swallowing `PackageNotFound` (`none`) and returning the first hit. -/
def scanRepos (repos : List Repo) (name version : String) : Option Package :=
  match repos with
  | [] => none
  | r :: rs =>
    match r.packageFn name version with
    | some pkg => some pkg
    | none => scanRepos rs name version

/-- `Pool.package(name, version, project, extras, repository)`. -/
def Pool.package (p : Pool) (name version : String) (repository : Option String) :
    PackageResult :=
  match p with
  | .mk lookup repos _ _ _ ign parent =>
    let repoName := repository.map strLower
    if repoName.isSome && (dictGet lookup repoName).isNone && !ign then
      match parent with
      | some par => Pool.package par name version repoName
      | none => .valueError ("Repository \"" ++ optStr repoName ++ "\" does not exist.")
    else
      let attempt : Option Package :=
        if repoName.isSome && !ign then
          match dictGet lookup repoName with
          | some i =>
            match repos.get? i with
            | some rc => rc.packageFn name version
            | none => none
          | none => none
        else
          scanRepos repos name version
      match attempt with
      | some pkg => .found pkg
      | none =>
        match parent with
        | some par => Pool.package par name version repoName
        | none => .packageNotFound ("Package " ++ name ++ " (" ++ version ++ ") not found.")

/-- The unnamed-scan loop of `Pool.find_packages`: first client with a
non-empty result wins; later clients are not consulted. -/
def firstNonEmptyScan (repos : List Repo) (dep : Dependency) : List Package :=
  match repos with
  | [] => []
  | r :: rs =>
    let found := r.findPackagesFn dep
    if found.length > 0 then found else firstNonEmptyScan rs dep

/-- `Pool.find_packages(dependency)`.  `Except` carries the raised
`ValueError` for an unknown named repository without a parent. -/
def Pool.findPackages (p : Pool) (dep : Dependency) : Except String (List Package) :=
  match p with
  | .mk lookup repos _ _ sIdx ign parent =>
    let repoName := dep.sourceName.map strLower
    if repoName.isSome && (dictGet lookup repoName).isNone && !ign then
      match parent with
      | some par => Pool.findPackages par dep
      | none => .error ("Repository \"" ++ optStr repoName ++ "\" does not exist.")
    else if repoName.isSome && !ign then
      match dictGet lookup repoName with
      | some i =>
        match repos.get? i with
        | some rc => .ok (rc.findPackagesFn dep)
        | none => .error "IndexError"
      | none => .error "IndexError"
    else
      let sliced := match sIdx with
        | none => repos
        | some k => repos.take k
      let packages := firstNonEmptyScan sliced dep
      if packages.length == 0 && parent.isSome then
        match parent with
        | some par => Pool.findPackages par dep
        | none => .ok packages
      else
        .ok packages

/-! ### Page and LegacyRepository (src/poetry/repositories/legacy_repository.py) -/

/-- A distribution link discovered on an index page (already past the
supported-extension filter of `Page.links`). -/
structure Link where
  url : String
  filename : String
deriving DecidableEq, Repr

/-- A parsed index page.  `url`, `content` and `headers` are the constructor
arguments of `Page.__init__`; `links` is the outcome of the external HTML
parse (`html5lib` + anchor filtering), and `linkVersion` is the external
version-derivation rule (`wheel_file_re` / `VERSION_REGEX` / `Version.parse`),
both opaque collaborators at the interface the source uses. -/
structure Page where
  url : String
  content : String
  headers : List (String × String)
  links : List Link
  linkVersion : Link → Option Version

/-- `Page.__init__`: append a trailing slash to the base URL when missing, keep
content/headers, run the external parse to obtain the anchor links. -/
def mkPage (url content : String) (headers : List (String × String))
    (parseLinks : String → List Link) (linkVersionOf : Link → Option Version) : Page :=
  ⟨if url.endsWith "/" then url else url ++ "/", content, headers,
    parseLinks content, linkVersionOf⟩

/-- The generator body of `Page.versions`: walk the links, derive a version for
each, skip underivable ones, and skip versions already in the `seen` set. -/
def versionsAux (linkVersion : Link → Option Version) :
    List Version → List Link → List Version
  | _, [] => []
  | seen, l :: ls =>
    match linkVersion l with
    | none => versionsAux linkVersion seen ls
    | some v =>
      if v ∈ seen then versionsAux linkVersion seen ls
      else v :: versionsAux linkVersion (v :: seen) ls

/-- `Page.versions`: the deduplicated version sequence, as a list. -/
def Page.versions (pg : Page) : List Version :=
  versionsAux pg.linkVersion [] pg.links

/-- `Page.links_for_version(version)`: links whose derived version equals the
given one (`None` never equals a version). -/
def Page.linksForVersion (pg : Page) (v : Version) : List Link :=
  pg.links.filter (fun l => decide (pg.linkVersion l = some v))

/-- An HTTP response at the interface `LegacyRepository._get` consumes:
status code, final URL, body, headers. -/
structure Response where
  statusCode : Nat
  url : String
  content : String
  headers : List (String × String)

/-- Outcome of `LegacyRepository._get`: `absent` models the `return None`
paths, `repositoryError` the raised `RepositoryError` wrapping the HTTP
error, `page` a successfully parsed page. -/
inductive GetResult where
  | absent
  | repositoryError (status : Nat) (url : String)
  | page (pg : Page)

/-- `LegacyRepository` state: configured name and (r-stripped) base URL, the
`"matches"` cache store (TTL bookkeeping is not modelled: a key is a hit
exactly while it is present), and the external collaborators — the HTTP
session (`http`), the HTML parse and the version-derivation rule. -/
structure LegacyRepo where
  name : String
  url : String
  matchesCache : List (String × List Version)
  http : String → Response
  parseLinks : String → List Link
  linkVersionOf : Link → Option Version

/-- Replace the matches cache (used to thread cache state between calls). -/
def LegacyRepo.withCache (repo : LegacyRepo) (c : List (String × List Version)) :
    LegacyRepo :=
  ⟨repo.name, repo.url, c, repo.http, repo.parseLinks, repo.linkVersionOf⟩

/-- String-keyed cache lookup (`store.has` / `store.get`): a key is a hit
exactly while present (the 5-unit TTL clock is not modelled). -/
def lookupS (d : List (String × List Version)) (k : String) :
    Option (List Version) :=
  match d with
  | [] => none
  | q :: t => if q.1 = k then some q.2 else lookupS t k

/-- String-keyed cache write (`store.put`): update in place when the key
exists, else append. -/
def insertS (d : List (String × List Version)) (k : String) (v : List Version) :
    List (String × List Version) :=
  match d with
  | [] => [(k, v)]
  | q :: t => if q.1 = k then (k, v) :: t else q :: insertS t k v

/-- `LegacyRepository._get(endpoint)`.  `requests.Response.raise_for_status`
(external) raises `requests.HTTPError` exactly for status codes 400–599;
the `except requests.HTTPError` clause wraps that into `RepositoryError`.
Statuses 401/403 (after a warning log) and 404 return `None` first. -/
def LegacyRepo.getPage (repo : LegacyRepo) (endpoint : String) : GetResult :=
  let url := repo.url ++ endpoint
  let response := repo.http url
  if response.statusCode = 401 || response.statusCode = 403 then .absent
  else if response.statusCode = 404 then .absent
  else if 400 ≤ response.statusCode && response.statusCode ≤ 599 then
    .repositoryError response.statusCode url
  else
    .page (mkPage response.url response.content response.headers
      repo.parseLinks repo.linkVersionOf)

/-- Whether a stated range bound is itself an unstable version
(`x is not None and x.is_unstable()`). -/
def rangeBoundUnstable : Option Version → Bool
  | some v => v.unstable
  | none => false

/-- The prerelease-allowance computation at the top of
`LegacyRepository.find_packages`: the dependency flag, forced to `True` when
the constraint is a `VersionRange` whose stated `max` or `min` bound is
unstable. -/
def effectiveAllowPrereleases (dep : Dependency) : Bool :=
  let constraint := normalizeConstraint dep.constraint
  dep.allowsPrereleases ||
    (match constraint.asRange with
     | some (mn, mx) => rangeBoundUnstable mx || rangeBoundUnstable mn
     | none => false)

/-- The matched-versions cache key: the bare name for an any-constraint,
else `name:constraint-text`. -/
def cacheKey (dep : Dependency) : String :=
  let c := normalizeConstraint dep.constraint
  if c.isAny then dep.name else dep.name ++ ":" ++ c.text

/-- The version-filtering loop of `find_packages` on a cache miss: returns
(primary list, ignored-prerelease list), both in page order. -/
def classifyVersions (allowPre : Bool) (c : VersionConstraint) :
    List Version → List Version × List Version
  | [] => ([], [])
  | v :: vs =>
    let rest := classifyVersions allowPre c vs
    if v.unstable && !allowPre then
      if c.isAny then (rest.1, v :: rest.2) else rest
    else if c.allows v then (v :: rest.1, rest.2) else rest

/-- The package-building loop of `find_packages`: iterate over the pair
(primary versions, ignored prereleases), appending a `Package` per version,
and break after a round that produced packages or when the constraint is not
the any-constraint. -/
def packagesLoop (mk : Version → Package) (isAny : Bool) :
    List (List Version) → List Package → List Package
  | [], packages => packages
  | pv :: rest, packages =>
    let packages := packages ++ pv.map mk
    if packages.length > 0 || !isAny then packages
    else packagesLoop mk isAny rest packages

/-- The `Package(...)` construction inside `find_packages`: name, version,
`source_type="legacy"`, `source_reference=self.name`, `source_url=self._url`. -/
def LegacyRepo.mkPackage (repo : LegacyRepo) (name : String) (v : Version) :
    Package :=
  ⟨name, v, "legacy", repo.name, repo.url⟩

/-- `LegacyRepository.find_packages(dependency)`.  The result carries the
possibly-updated matches cache; `Except` carries a raised `RepositoryError`
(status, url) from the page fetch. -/
def LegacyRepo.findPackages (repo : LegacyRepo) (dep : Dependency) :
    Except (Nat × String) (List Package × List (String × List Version)) :=
  let constraint := normalizeConstraint dep.constraint
  let allowPre := effectiveAllowPrereleases dep
  let key := cacheKey dep
  match lookupS repo.matchesCache key with
  | some versions =>
      .ok (packagesLoop (repo.mkPackage dep.name) constraint.isAny
        [versions, []] [], repo.matchesCache)
  | none =>
    match repo.getPage ("/" ++ dotsToDashes dep.name ++ "/") with
    | .absent => .ok ([], repo.matchesCache)
    | .repositoryError s u => .error (s, u)
    | .page pg =>
      let cls := classifyVersions allowPre constraint pg.versions
      let cache1 := insertS repo.matchesCache key cls.1
      .ok (packagesLoop (repo.mkPackage dep.name) constraint.isAny
        [cls.1, cls.2] [], cache1)

/-- `LegacyRepository.find_links_for_package(package)`. -/
def LegacyRepo.findLinksForPackage (repo : LegacyRepo) (pkg : Package) :
    Except (Nat × String) (List Link) :=
  match repo.getPage ("/" ++ dotsToDashes pkg.name ++ "/") with
  | .absent => .ok []
  | .repositoryError s u => .error (s, u)
  | .page pg => .ok (pg.linksForVersion pkg.version)

/-! ### Pool construction sequences -/

/-- One `add_repository` call: the client plus its `default`/`secondary`
flags. -/
structure AddOp where
  repo : Repo
  dflt : Bool
  secondary : Bool

/-- `Pool.__init__` with no repositories. -/
def emptyPool (parent : Option Pool) (ign : Bool) : Pool :=
  .mk [] [] false false none ign parent

/-- Perform a sequence of `add_repository` calls, stopping at the first
raised error. -/
def addAll (p : Pool) (ops : List AddOp) : Except String Pool :=
  match ops with
  | [] => .ok p
  | op :: rest =>
    match p.addRepository op.repo op.dflt op.secondary with
    | .ok p1 => addAll p1 rest
    | .error e => .error e

/-- A pool built from a fresh `Pool.__init__` by a sequence of
`add_repository` calls. -/
def buildPool (parent : Option Pool) (ign : Bool) (ops : List AddOp) :
    Except String Pool :=
  addAll (emptyPool parent ign) ops

/-- Total convenience wrapper for `buildPool` on sequences known to succeed. -/
def poolOf (parent : Option Pool) (ign : Bool) (ops : List AddOp) : Pool :=
  match buildPool parent ign ops with
  | .ok p => p
  | .error _ => emptyPool parent ign

/-- The branch `add_repository` takes for an op: `default` wins, then
`secondary`, else primary. -/
def isDefaultOp (o : AddOp) : Bool := o.dflt

def isSecondaryOp (o : AddOp) : Bool := !o.dflt && o.secondary

def isPrimaryOp (o : AddOp) : Bool := !o.dflt && !o.secondary

/-- Structural tier decomposition of a pool: the repository list is the
default block, then the primary block, then the secondary block, with
`_secondary_start_idx` marking the start of the secondary block (and unset
while no secondary was ever added). -/
def Shape (p : Pool) (d pr s : List Repo) : Prop :=
  p.repositories = d ++ pr ++ s ∧
  p.secondaryStartIdx = (if s.isEmpty then none else some (d.length + pr.length)) ∧
  (p.hasDefault = true ↔ d ≠ [])

theorem isEmpty_false_of_ne_nil {α : Type} {l : List α} (h : l ≠ []) :
    l.isEmpty = false := by
  cases l with
  | nil => exact absurd rfl h
  | cons a t => rfl

theorem addRepository_default_error (p : Pool) (r : Repo) (sec : Bool)
    (h : p.hasDefault = true) :
    p.addRepository r true sec = .error "Only one repository can be the default" := by
  obtain ⟨l, repos, dflt, hp, sIdx, ign, par⟩ := p
  simp only [Pool.hasDefault] at h
  simp [Pool.addRepository, h]

theorem addRepository_shape_default (p : Pool) (r : Repo) (sec : Bool)
    (pr s : List Repo) (hs : Shape p [] pr s) :
    ∃ p1, p.addRepository r true sec = .ok p1 ∧ Shape p1 [r] pr s ∧
      p1.parent = p.parent ∧ p1.ignoreRepositoryNames = p.ignoreRepositoryNames := by
  obtain ⟨l, repos, dflt, hp, sIdx, ign, par⟩ := p
  obtain ⟨hrepos, hsidx, hdef⟩ := hs
  simp only [Pool.repositories, Pool.secondaryStartIdx, Pool.hasDefault] at hrepos hsidx hdef
  have hdflt : dflt = false := by
    rcases Bool.eq_false_or_eq_true dflt with h | h
    · rw [h] at hdef
      simp at hdef
    · exact h
  subst hdflt
  refine ⟨_, rfl, ?_, rfl, rfl⟩
  refine ⟨?_, ?_, ?_⟩
  · simp [Pool.addRepository, Pool.repositories, insertAt, hrepos]
  · simp only [Pool.addRepository, Pool.secondaryStartIdx, hsidx]
    cases s with
    | nil => rfl
    | cons a t => simp [Nat.add_comm]
  · simp [Pool.addRepository, Pool.hasDefault]

theorem addRepository_shape_secondary (p : Pool) (r : Repo)
    (d pr s : List Repo) (hs : Shape p d pr s) :
    ∃ p1, p.addRepository r false true = .ok p1 ∧ Shape p1 d pr (s ++ [r]) ∧
      p1.parent = p.parent ∧ p1.ignoreRepositoryNames = p.ignoreRepositoryNames := by
  obtain ⟨l, repos, dflt, hp, sIdx, ign, par⟩ := p
  obtain ⟨hrepos, hsidx, hdef⟩ := hs
  simp only [Pool.repositories, Pool.secondaryStartIdx, Pool.hasDefault] at hrepos hsidx hdef
  refine ⟨_, rfl, ?_, rfl, rfl⟩
  refine ⟨?_, ?_, ?_⟩
  · simp [Pool.repositories, hrepos]
  · simp only [Pool.secondaryStartIdx]
    cases s with
    | nil =>
      simp only [List.isEmpty_nil, if_pos rfl] at hsidx
      subst hsidx
      simp [hrepos]
    | cons a t =>
      simp only [List.isEmpty_cons, Bool.false_eq_true, if_neg] at hsidx
      subst hsidx
      simp
  · simpa [Pool.hasDefault] using hdef

theorem addRepository_shape_primary (p : Pool) (r : Repo)
    (d pr s : List Repo) (hs : Shape p d pr s) :
    ∃ p1, p.addRepository r false false = .ok p1 ∧ Shape p1 d (pr ++ [r]) s ∧
      p1.parent = p.parent ∧ p1.ignoreRepositoryNames = p.ignoreRepositoryNames := by
  obtain ⟨l, repos, dflt, hp, sIdx, ign, par⟩ := p
  obtain ⟨hrepos, hsidx, hdef⟩ := hs
  simp only [Pool.repositories, Pool.secondaryStartIdx, Pool.hasDefault] at hrepos hsidx hdef
  cases s with
  | nil =>
    simp only [List.isEmpty_nil, if_pos rfl] at hsidx
    subst hsidx
    refine ⟨_, rfl, ?_, rfl, rfl⟩
    refine ⟨?_, ?_, ?_⟩
    · simp [Pool.repositories, hrepos]
    · simp [Pool.secondaryStartIdx]
    · simpa [Pool.hasDefault] using hdef
  | cons a t =>
    simp only [List.isEmpty_cons, Bool.false_eq_true, if_neg] at hsidx
    subst hsidx
    refine ⟨_, rfl, ?_, rfl, rfl⟩
    refine ⟨?_, ?_, ?_⟩
    · have htake : List.take (d.length + pr.length) (d ++ (pr ++ a :: t)) = d ++ pr := by
        have := List.take_left (d ++ pr) (a :: t)
        simpa [List.length_append, List.append_assoc] using this
      have hdrop : List.drop (d.length + pr.length) (d ++ (pr ++ a :: t)) = a :: t := by
        simp [List.length_append, List.append_assoc]
      simp [Pool.repositories, insertAt, hrepos, htake, hdrop]
    · simp [Pool.secondaryStartIdx, Nat.add_assoc]
    · simpa [Pool.hasDefault] using hdef

theorem addAll_shape (ops : List AddOp) :
    ∀ (p : Pool) (d pr s : List Repo) (q : Pool),
    Shape p d pr s → addAll p ops = .ok q →
    Shape q (d ++ (ops.filter isDefaultOp).map AddOp.repo)
            (pr ++ (ops.filter isPrimaryOp).map AddOp.repo)
            (s ++ (ops.filter isSecondaryOp).map AddOp.repo) ∧
    q.parent = p.parent ∧ q.ignoreRepositoryNames = p.ignoreRepositoryNames := by
  induction ops with
  | nil =>
    intro p d pr s q hs hq
    simp only [addAll] at hq
    cases hq
    refine ⟨?_, rfl, rfl⟩
    simpa using hs
  | cons op rest ih =>
    intro p d pr s q hs hq
    obtain ⟨r, dflt, sec⟩ := op
    simp only [addAll] at hq
    cases dflt
    · cases sec
      · -- primary
        obtain ⟨p1, hadd, hs1, hpar, hign⟩ := addRepository_shape_primary p r d pr s hs
        rw [hadd] at hq
        have := ih p1 d (pr ++ [r]) s q hs1 hq
        simpa [isDefaultOp, isPrimaryOp, isSecondaryOp, hpar, hign] using this
      · -- secondary
        obtain ⟨p1, hadd, hs1, hpar, hign⟩ := addRepository_shape_secondary p r d pr s hs
        rw [hadd] at hq
        have := ih p1 d pr (s ++ [r]) q hs1 hq
        simpa [isDefaultOp, isPrimaryOp, isSecondaryOp, hpar, hign] using this
    · -- default
      by_cases hd : d = []
      · subst hd
        obtain ⟨p1, hadd, hs1, hpar, hign⟩ := addRepository_shape_default p r sec pr s hs
        rw [hadd] at hq
        have := ih p1 [r] pr s q hs1 hq
        simpa [isDefaultOp, isPrimaryOp, isSecondaryOp, hpar, hign] using this
      · have herr := addRepository_default_error p r sec (hs.2.2.mpr hd)
        rw [herr] at hq
        cases hq

/-- The default-tier block followed by the primary-tier block of an add
sequence: exactly the clients an unnamed `find_packages` may consult. -/
def tierScanned (ops : List AddOp) : List Repo :=
  (ops.filter isDefaultOp).map AddOp.repo ++ (ops.filter isPrimaryOp).map AddOp.repo

theorem firstNonEmptyScan_append (pre rest : List Repo) (dep : Dependency)
    (h : ∀ r ∈ pre, r.findPackagesFn dep = []) :
    firstNonEmptyScan (pre ++ rest) dep = firstNonEmptyScan rest dep := by
  induction pre with
  | nil => rfl
  | cons a t ih =>
    have ha : a.findPackagesFn dep = [] := h a (by simp)
    have ht : ∀ r ∈ t, r.findPackagesFn dep = [] := fun r hr => h r (by simp [hr])
    simp only [List.cons_append, firstNonEmptyScan, ha]
    simpa using ih ht

theorem firstNonEmptyScan_cons_ne (r : Repo) (rest : List Repo) (dep : Dependency)
    (h : r.findPackagesFn dep ≠ []) :
    firstNonEmptyScan (r :: rest) dep = r.findPackagesFn dep := by
  have hl : (r.findPackagesFn dep).length > 0 := List.length_pos.mpr h
  simp [firstNonEmptyScan, hl]

theorem firstNonEmptyScan_all_empty (repos : List Repo) (dep : Dependency)
    (h : ∀ r ∈ repos, r.findPackagesFn dep = []) :
    firstNonEmptyScan repos dep = [] := by
  have := firstNonEmptyScan_append repos [] dep h
  simpa using this

/-- `Pool.find_packages` on a dependency with no declared source repository:
the two named-repository branches are skipped and the tier scan runs. -/
theorem findPackages_unnamed_eq (p : Pool) (dep : Dependency)
    (hsrc : dep.sourceName = none) :
    p.findPackages dep =
      (let sliced := match p.secondaryStartIdx with
         | none => p.repositories
         | some k => p.repositories.take k
       let packages := firstNonEmptyScan sliced dep
       if packages.length == 0 && (p.parent).isSome then
         match p.parent with
         | some q => Pool.findPackages q dep
         | none => .ok packages
       else .ok packages) := by
  obtain ⟨l, repos, hd, hp, sIdx, ign, par⟩ := p
  have hmap : dep.sourceName.map strLower = none := by rw [hsrc]; rfl
  cases sIdx <;> cases par <;>
    simp [Pool.findPackages, Pool.secondaryStartIdx, Pool.repositories, Pool.parent, hmap]

/-- **C3**: for every dependency with no declared source-repository name,
`Pool.find_packages` scans only the clients before the secondary boundary —
which, for a pool built by `add_repository` calls, are exactly the default
and primary tiers in order, so secondary repositories are never consulted —
returns the result of the first client yielding a non-empty list without
merging results from any later client, and, when every scanned client yields
an empty list, delegates the whole call to the parent pool when one exists
(returning the empty list otherwise). -/
theorem pool_findPackages_unnamed_scan
    (parentP : Option Pool) (ign : Bool) (ops : List AddOp) (p : Pool)
    (dep : Dependency)
    (hp : buildPool parentP ign ops = .ok p) (hsrc : dep.sourceName = none) :
    (match p.secondaryStartIdx with
       | none => p.repositories
       | some k => p.repositories.take k) = tierScanned ops ∧
    (∀ pre r post, tierScanned ops = pre ++ r :: post →
        (∀ r0 ∈ pre, r0.findPackagesFn dep = []) →
        r.findPackagesFn dep ≠ [] →
        p.findPackages dep = .ok (r.findPackagesFn dep)) ∧
    ((∀ r ∈ tierScanned ops, r.findPackagesFn dep = []) →
        p.findPackages dep = (match parentP with
          | some par => Pool.findPackages par dep
          | none => .ok [])) := by
  have hshape0 : Shape (emptyPool parentP ign) [] [] [] := by
    refine ⟨rfl, rfl, by simp [emptyPool, Pool.hasDefault]⟩
  obtain ⟨⟨hrepos, hsidx, _⟩, hpar, _⟩ :=
    addAll_shape ops (emptyPool parentP ign) [] [] [] p hshape0 hp
  simp only [List.nil_append] at hrepos hsidx
  have hparent : p.parent = parentP := by
    simpa [emptyPool, Pool.parent] using hpar
  have hsliced : (match p.secondaryStartIdx with
       | none => p.repositories
       | some k => p.repositories.take k) = tierScanned ops := by
    rw [hsidx, hrepos]
    cases hS : (ops.filter isSecondaryOp).map AddOp.repo with
    | nil => simp [tierScanned, hS]
    | cons a t =>
      have htake := List.take_left
        ((ops.filter isDefaultOp).map AddOp.repo ++
          (ops.filter isPrimaryOp).map AddOp.repo) (a :: t)
      simp only [List.length_append] at htake
      simpa [tierScanned, List.append_assoc] using htake
  refine ⟨hsliced, ?_, ?_⟩
  · intro pre r post hsplit hpre hne
    rw [findPackages_unnamed_eq p dep hsrc]
    simp only [hsliced, hsplit]
    rw [firstNonEmptyScan_append pre (r :: post) dep hpre,
      firstNonEmptyScan_cons_ne r post dep hne]
    obtain ⟨a, t, hat⟩ := List.exists_cons_of_ne_nil hne
    rw [hat]
    simp
  · intro hall
    rw [findPackages_unnamed_eq p dep hsrc]
    simp only [hsliced]
    rw [firstNonEmptyScan_all_empty (tierScanned ops) dep hall, hparent]
    cases parentP with
    | some par => simp
    | none => simp

/-! ### Concrete fixtures -/

/-- A named repository with no packages (shape bookkeeping fixtures). -/
def prRepo (nm : String) : Repo := ⟨some nm, fun _ => [], fun _ _ => none⟩

/-- A concrete package fixture. -/
def pkgOf (nm : String) (n : Nat) : Package := ⟨nm, ⟨n, false⟩, "legacy", "r", "u"⟩

/-- The pool of C1's failing input: primaries "a" and "b", then
`remove_repository("a")`. -/
def c1pool : Pool :=
  (poolOf none false [⟨prRepo "a", false, false⟩, ⟨prRepo "b", false, false⟩]).removeRepository
    (some "a")

/-- **C1** (code bug): `remove_repository` deletes only the repository-list
slot.  After adding primaries "a" and "b" and removing "a", the list is
`[b]` (length 1) while the lookup still maps "b" to index 1 — no longer the
position of "b", and out of range — and still contains the removed name "a"
at index 0.  No index is re-derived, so the name-to-index invariant is
broken by removal. -/
theorem pool_remove_leaves_lookup_stale :
    c1pool.repositories = [prRepo "b"] ∧
    c1pool.repositories.length = 1 ∧
    dictGet c1pool.lookup (some "b") = some 1 ∧
    dictGet c1pool.lookup (some "a") = some 0 := by
  exact ⟨rfl, rfl, rfl, rfl⟩

/-- The add sequence of C7: three primaries, one secondary, one more
primary. -/
def c7ops : List AddOp :=
  [⟨prRepo "p1", false, false⟩, ⟨prRepo "p2", false, false⟩,
   ⟨prRepo "p3", false, false⟩, ⟨prRepo "s1", false, true⟩,
   ⟨prRepo "p4", false, false⟩]

def c7pool : Pool := poolOf none false c7ops

def c7before : Pool := poolOf none false (c7ops.take 4)

/-- **C7** counterexample: adding three primaries, then one secondary, then
one more primary yields the five-entry order `[p1, p2, p3, p4, s1]`, not the
four-entry order `[primary1, primary2, primary3(new), secondary1]` the claim
states. -/
theorem pool_add_primary_after_secondary_counterexample :
    buildPool none false c7ops = .ok c7pool ∧
    c7pool.repositories =
      [prRepo "p1", prRepo "p2", prRepo "p3", prRepo "p4", prRepo "s1"] ∧
    c7pool.repositories ≠ [prRepo "p1", prRepo "p2", prRepo "p4", prRepo "s1"] := by
  refine ⟨rfl, rfl, fun h => ?_⟩
  have hlen := congrArg List.length h
  have h5 : c7pool.repositories.length = 5 := rfl
  rw [h5] at hlen
  simp at hlen

/-- **C7** (amended): adding three primaries, then one secondary, then one
more primary produces the order `[primary1, primary2, primary3,
primary4(new), secondary1]`: before the last add the boundary is 3 with the
secondary recorded at 3; the new primary is inserted at the boundary
position 3, the secondary's lookup index (the only one at or past the
boundary) shifts up to 4, the new client is recorded at the boundary, and
the boundary advances to 4. -/
theorem pool_add_primary_after_secondary_amended :
    c7before.repositories = [prRepo "p1", prRepo "p2", prRepo "p3", prRepo "s1"] ∧
    c7before.secondaryStartIdx = some 3 ∧
    dictGet c7before.lookup (some "s1") = some 3 ∧
    c7pool.repositories =
      [prRepo "p1", prRepo "p2", prRepo "p3", prRepo "p4", prRepo "s1"] ∧
    c7pool.secondaryStartIdx = some 4 ∧
    dictGet c7pool.lookup (some "p4") = some 3 ∧
    dictGet c7pool.lookup (some "s1") = some 4 ∧
    dictGet c7pool.lookup (some "p1") = some 0 ∧
    dictGet c7pool.lookup (some "p2") = some 1 ∧
    dictGet c7pool.lookup (some "p3") = some 2 := by
  exact ⟨rfl, rfl, rfl, rfl, rfl, rfl, rfl, rfl, rfl, rfl⟩

/-- The dependency and clients of C3's witness: two primaries, the first
yielding one match, the second yielding three. -/
def w3dep : Dependency := ⟨"x", none, none, false⟩

def w3r1 : Repo := ⟨some "r1", fun _ => [pkgOf "x" 1], fun _ _ => none⟩

def w3r2 : Repo :=
  ⟨some "r2", fun _ => [pkgOf "x" 2, pkgOf "x" 3, pkgOf "x" 4], fun _ _ => none⟩

def w3ops : List AddOp := [⟨w3r1, false, false⟩, ⟨w3r2, false, false⟩]

def w3pool : Pool := poolOf none false w3ops

theorem pool_findPackages_unnamed_scan_witness :
    buildPool none false w3ops = .ok w3pool ∧
    w3pool.findPackages w3dep = .ok [pkgOf "x" 1] := by
  refine ⟨rfl, ?_⟩
  exact (pool_findPackages_unnamed_scan none false w3ops w3pool w3dep rfl rfl).2.1
    [] w3r1 [w3r2] rfl (by intro r0 hr; cases hr) (by simp [w3r1])

/-! ### Lookup-table lemmas -/

theorem dictGet_map_incr (l : List (Option String × Nat)) (k : Option String) :
    dictGet (l.map (fun q => (q.1, q.2 + 1))) k =
      (dictGet l k).map (fun i => i + 1) := by
  induction l with
  | nil => rfl
  | cons q t ih =>
    by_cases h : q.1 = k
    · simp [dictGet, h]
    · simp [dictGet, h, ih]

theorem dictGet_dictSet_self (l : List (Option String × Nat)) (k : Option String)
    (v : Nat) : dictGet (dictSet l k v) k = some v := by
  induction l with
  | nil => simp [dictGet, dictSet]
  | cons q t ih =>
    by_cases h : q.1 = k
    · simp [dictGet, dictSet, h]
    · simp [dictGet, dictSet, h, ih]

theorem dictGet_dictSet_ne (l : List (Option String × Nat)) (k n : Option String)
    (v : Nat) (hne : n ≠ k) : dictGet (dictSet l k v) n = dictGet l n := by
  induction l with
  | nil => simp [dictGet, dictSet, Ne.symm hne]
  | cons q t ih =>
    by_cases h : q.1 = k
    · rw [dictSet, if_pos h, dictGet, if_neg (fun hc => Ne.symm hne hc),
        dictGet, if_neg (fun hc => Ne.symm hne (h ▸ hc))]
    · rw [dictSet, if_neg h]
      by_cases h2 : q.1 = n
      · rw [dictGet, if_pos h2, dictGet, if_pos h2]
      · rw [dictGet, if_neg h2, dictGet, if_neg h2]
        exact ih

/-- **C8**: `Pool.add_repository` with `default=true` raises the
configuration error when a default already exists (one default per pool);
when it succeeds, the new repository is inserted at position 0, every other
previously registered name's lookup index and the secondary boundary (when
set) increase by one, and the default's name resolves to index 0. -/
theorem pool_add_default_contract (p : Pool) (r : Repo) (sec : Bool) :
    (p.hasDefault = true →
      p.addRepository r true sec = .error "Only one repository can be the default") ∧
    (p.hasDefault = false →
      ∃ p1, p.addRepository r true sec = .ok p1 ∧
        p1.repositories = r :: p.repositories ∧
        dictGet p1.lookup (r.name.map strLower) = some 0 ∧
        (∀ n i, dictGet p.lookup n = some i → n ≠ r.name.map strLower →
          dictGet p1.lookup n = some (i + 1)) ∧
        p1.secondaryStartIdx = p.secondaryStartIdx.map (fun i => i + 1) ∧
        p1.hasDefault = true) := by
  obtain ⟨l, repos, dflt, hp, sIdx, ign, par⟩ := p
  constructor
  · intro h
    simp only [Pool.hasDefault] at h
    simp [Pool.addRepository, h]
  · intro h
    simp only [Pool.hasDefault] at h
    subst h
    refine ⟨_, rfl, ?_, ?_, ?_, ?_, rfl⟩
    · simp [Pool.addRepository, Pool.repositories, insertAt]
    · exact dictGet_dictSet_self _ _ _
    · intro n i hgi hne
      simp only [Pool.lookup] at hgi ⊢
      rw [dictGet_dictSet_ne _ _ _ _ hne, dictGet_map_incr, hgi]
      rfl
    · simp [Pool.secondaryStartIdx]

def w8pool : Pool := poolOf none false [⟨prRepo "a", false, false⟩]

def w8poolD : Pool := poolOf none false [⟨prRepo "d", true, false⟩]

theorem pool_add_default_contract_witness :
    (w8poolD.hasDefault = true →
      w8poolD.addRepository (prRepo "e") true false =
        .error "Only one repository can be the default") ∧
    (w8pool.hasDefault = false →
      ∃ p1, w8pool.addRepository (prRepo "d") true false = .ok p1 ∧
        p1.repositories = prRepo "d" :: w8pool.repositories ∧
        dictGet p1.lookup ((prRepo "d").name.map strLower) = some 0 ∧
        (∀ n i, dictGet w8pool.lookup n = some i →
          n ≠ (prRepo "d").name.map strLower → dictGet p1.lookup n = some (i + 1)) ∧
        p1.secondaryStartIdx = w8pool.secondaryStartIdx.map (fun i => i + 1) ∧
        p1.hasDefault = true) :=
  ⟨(pool_add_default_contract w8poolD (prRepo "e") false).1,
   (pool_add_default_contract w8pool (prRepo "d") false).2⟩

/-- The common fall-through tail of `Pool.package`: delegate to the parent
when one exists, else raise `PackageNotFound`. -/
def packageFallThrough (p : Pool) (name version : String)
    (repoName : Option String) : PackageResult :=
  match p.parent with
  | some par => Pool.package par name version repoName
  | none => .packageNotFound ("Package " ++ name ++ " (" ++ version ++ ") not found.")

/-- The repositories of the C2 input: every client finds a package for every
request, with distinguishable results. -/
def c2r1 : Repo := ⟨some "a", fun _ => [], fun _ _ => some (pkgOf "x" 10)⟩

def c2r2 : Repo := ⟨some "b", fun _ => [], fun _ _ => some (pkgOf "x" 20)⟩

/-- A pool that bypasses name matching (`ignore_repository_names=True`). -/
def c2pool : Pool := poolOf none true [⟨c2r1, false, false⟩, ⟨c2r2, false, false⟩]

/-- **C2** counterexample: when name-matching is bypassed, `Pool.package`
with the recognized hint "b" does not ask the hinted client: it scans every
client in order and returns client "a"'s package, although the hinted client
"b" would have returned a different one. -/
theorem pool_package_hint_bypassed_counterexample :
    c2pool.ignoreRepositoryNames = true ∧
    dictGet c2pool.lookup (some "b") = some 1 ∧
    c2r2.packageFn "x" "1" = some (pkgOf "x" 20) ∧
    c2pool.package "x" "1" (some "b") = .found (pkgOf "x" 10) ∧
    pkgOf "x" 10 ≠ pkgOf "x" 20 := by
  exact ⟨rfl, rfl, rfl, rfl, by decide⟩

/-- **C2** (amended): when a repository hint is given, recognized, and
name-matching is not bypassed, the pool asks the hinted client; a found
package is returned, and the client's `PackageNotFound` makes the pool fall
through — to the parent pool when one exists, else to `PackageNotFound` —
instead of propagating immediately.  When name-matching is bypassed, the
hint is ignored: the pool scans all clients in order, falling through in the
same way when none finds the package. -/
theorem pool_package_hint_contract (p : Pool) (name ver rname : String) :
    (p.ignoreRepositoryNames = false →
      ∀ i rc, dictGet p.lookup (some (strLower rname)) = some i →
        p.repositories.get? i = some rc →
        ((∀ pkg, rc.packageFn name ver = some pkg →
            p.package name ver (some rname) = .found pkg) ∧
         (rc.packageFn name ver = none →
            p.package name ver (some rname) =
              packageFallThrough p name ver (some (strLower rname))))) ∧
    (p.ignoreRepositoryNames = true →
      p.package name ver (some rname) =
        (match scanRepos p.repositories name ver with
         | some pkg => .found pkg
         | none => packageFallThrough p name ver (some (strLower rname)))) := by
  obtain ⟨l, repos, hd, hp, sIdx, ign, par⟩ := p
  constructor
  · intro hign i rc hlk hrc
    simp only [Pool.ignoreRepositoryNames] at hign
    subst hign
    simp only [Pool.lookup] at hlk
    simp only [Pool.repositories] at hrc
    rw [List.get?_eq_getElem?] at hrc
    constructor
    · intro pkg hpkg
      cases par <;>
        simp [Pool.package, hlk, hrc, hpkg]
    · intro hpkg
      cases par <;>
        simp [Pool.package, packageFallThrough, Pool.parent, hlk, hrc, hpkg]
  · intro hign
    simp only [Pool.ignoreRepositoryNames] at hign
    subst hign
    cases hscan : scanRepos repos name ver with
    | some pkg =>
      cases par <;>
        simp [Pool.package, Pool.repositories, hscan]
    | none =>
      cases par <;>
        simp [Pool.package, packageFallThrough, Pool.parent, Pool.repositories, hscan]

def w2pool : Pool := poolOf none false [⟨c2r1, false, false⟩, ⟨c2r2, false, false⟩]

def w2empty : Pool := poolOf none false [⟨prRepo "a", false, false⟩]

theorem pool_package_hint_contract_witness :
    w2pool.package "x" "1" (some "B") = .found (pkgOf "x" 20) ∧
    w2empty.package "x" "1" (some "a") =
      .packageNotFound "Package x (1) not found." := by
  constructor
  · exact ((pool_package_hint_contract w2pool "x" "1" "B").1 rfl 1 c2r2 rfl rfl).1
      (pkgOf "x" 20) rfl
  · have h := ((pool_package_hint_contract w2empty "x" "1" "a").1 rfl 0
      (prRepo "a") rfl rfl).2 rfl
    exact h.trans rfl

/-! ### Legacy-repository lemmas -/

theorem lookupS_insertS_self (d : List (String × List Version)) (k : String)
    (v : List Version) : lookupS (insertS d k v) k = some v := by
  induction d with
  | nil => simp [lookupS, insertS]
  | cons q t ih =>
    by_cases h : q.1 = k
    · simp [lookupS, insertS, h]
    · simp [lookupS, insertS, h, ih]

theorem classify_all_unstable_any (c : VersionConstraint) (l : List Version)
    (hA : c.isAny = true) (h : ∀ v ∈ l, v.unstable = true) :
    classifyVersions false c l = ([], l) := by
  induction l with
  | nil => rfl
  | cons v vs ih =>
    have hv := h v (by simp)
    have ihh := ih (fun w hw => h w (by simp [hw]))
    simp [classifyVersions, hv, hA, ihh]

theorem classify_not_any (c : VersionConstraint) (l : List Version)
    (hA : c.isAny = false) :
    classifyVersions false c l =
      (l.filter (fun v => !v.unstable && c.allows v), []) := by
  induction l with
  | nil => rfl
  | cons v vs ih =>
    cases hv : v.unstable with
    | true => simp [classifyVersions, hv, hA, ih, List.filter_cons]
    | false =>
      cases ha : c.allows v with
      | true => simp [classifyVersions, hv, ha, ih, List.filter_cons]
      | false => simp [classifyVersions, hv, ha, ih, List.filter_cons]

theorem packagesLoop_pair (mk : Version → Package) (b : Bool)
    (vs ig : List Version) :
    packagesLoop mk b [vs, ig] [] =
      (if vs.length > 0 || !b then vs.map mk else vs.map mk ++ ig.map mk) := by
  cases hcond : (decide (vs.length > 0) || !b) with
  | true => simp [packagesLoop, hcond]
  | false =>
    simp only [packagesLoop, List.nil_append, List.length_map, hcond,
      Bool.false_eq_true, if_neg]
    cases hc2 : (decide ((vs.map mk ++ ig.map mk).length > 0) || !b) <;>
      simp [packagesLoop, hc2, hcond]

/-- **C6**: in `LegacyRepository.find_packages`, when the normalized
constraint is a version range whose stated minimum or maximum bound is an
unstable version, prerelease allowance is forced to true regardless of the
dependency's flag; otherwise the allowance is exactly the dependency flag. -/
theorem legacy_prerelease_forcing (dep : Dependency) :
    (∀ mn mx, (normalizeConstraint dep.constraint).asRange = some (mn, mx) →
      (rangeBoundUnstable mn = true ∨ rangeBoundUnstable mx = true) →
      effectiveAllowPrereleases dep = true) ∧
    ((∀ mn mx, (normalizeConstraint dep.constraint).asRange = some (mn, mx) →
        rangeBoundUnstable mn = false ∧ rangeBoundUnstable mx = false) →
      effectiveAllowPrereleases dep = dep.allowsPrereleases) := by
  constructor
  · intro mn mx hrange hforce
    rw [effectiveAllowPrereleases, hrange]
    rcases hforce with h | h <;> simp [h]
  · intro hstable
    rw [effectiveAllowPrereleases]
    cases hrange : (normalizeConstraint dep.constraint).asRange with
    | none => simp
    | some bounds =>
      obtain ⟨mn, mx⟩ := bounds
      obtain ⟨h1, h2⟩ := hstable mn mx hrange
      simp [h1, h2]

def w6ver : Version := ⟨7, true⟩

/-- The constraint of C6's witness: a range whose stated maximum bound is the
unstable version `w6ver`. -/
def w6constraint : VersionConstraint :=
  ⟨fun _ => true, false, some (none, some w6ver), "<7b1"⟩

def w6dep : Dependency := ⟨"x", some w6constraint, none, false⟩

theorem legacy_prerelease_forcing_witness :
    w6dep.allowsPrereleases = false ∧ effectiveAllowPrereleases w6dep = true :=
  ⟨rfl, (legacy_prerelease_forcing w6dep).1 none (some w6ver) rfl (Or.inr rfl)⟩

/-- **C4**: on a matched-versions cache miss with a fetched page, when the
constraint is "any" and prereleases are not allowed and the page yields only
unstable versions, `LegacyRepository.find_packages` returns one `Package`
per ignored unstable version (in page order) while caching the empty primary
list; when the constraint is not "any", unstable versions are simply
dropped and the result consists exactly of the versions the constraint
allows — possibly none. -/
theorem legacy_findPackages_prerelease_fallback
    (repo : LegacyRepo) (dep : Dependency) (pg : Page)
    (hmiss : lookupS repo.matchesCache (cacheKey dep) = none)
    (hpage : repo.getPage ("/" ++ dotsToDashes dep.name ++ "/") = .page pg)
    (hallow : effectiveAllowPrereleases dep = false) :
    ((normalizeConstraint dep.constraint).isAny = true →
      (∀ v ∈ pg.versions, v.unstable = true) →
      repo.findPackages dep =
        .ok (pg.versions.map (repo.mkPackage dep.name),
             insertS repo.matchesCache (cacheKey dep) [])) ∧
    ((normalizeConstraint dep.constraint).isAny = false →
      repo.findPackages dep =
        .ok ((pg.versions.filter (fun v =>
              !v.unstable && (normalizeConstraint dep.constraint).allows v)).map
            (repo.mkPackage dep.name),
          insertS repo.matchesCache (cacheKey dep)
            (pg.versions.filter (fun v =>
              !v.unstable && (normalizeConstraint dep.constraint).allows v)))) := by
  constructor
  · intro hA hU
    simp only [LegacyRepo.findPackages, hmiss, hpage, hallow]
    rw [classify_all_unstable_any _ _ hA hU]
    simp only [packagesLoop_pair]
    simp [hA]
  · intro hA
    simp only [LegacyRepo.findPackages, hmiss, hpage, hallow]
    rw [classify_not_any _ _ hA]
    simp only [packagesLoop_pair]
    simp [hA]

/-- **C10**: the ignored-prerelease fallback is only reachable on a cache
miss.  For a page with only unstable versions queried with an "any"
constraint and prereleases disallowed, the first (cache-miss) call returns
one package per unstable version but caches the empty primary list, so an
identical call against the updated cache (i.e. within the TTL) returns the
empty list. -/
theorem legacy_cache_hit_skips_prerelease_fallback
    (repo : LegacyRepo) (dep : Dependency) (pg : Page)
    (hmiss : lookupS repo.matchesCache (cacheKey dep) = none)
    (hpage : repo.getPage ("/" ++ dotsToDashes dep.name ++ "/") = .page pg)
    (hallow : effectiveAllowPrereleases dep = false)
    (hA : (normalizeConstraint dep.constraint).isAny = true)
    (hU : ∀ v ∈ pg.versions, v.unstable = true) :
    repo.findPackages dep =
      .ok (pg.versions.map (repo.mkPackage dep.name),
           insertS repo.matchesCache (cacheKey dep) []) ∧
    (repo.withCache (insertS repo.matchesCache (cacheKey dep) [])).findPackages dep =
      .ok ([], insertS repo.matchesCache (cacheKey dep) []) := by
  constructor
  · simp only [LegacyRepo.findPackages, hmiss, hpage, hallow]
    rw [classify_all_unstable_any _ _ hA hU]
    simp only [packagesLoop_pair]
    simp [hA]
  · have hhit : lookupS (repo.withCache
        (insertS repo.matchesCache (cacheKey dep) [])).matchesCache (cacheKey dep) =
        some [] := lookupS_insertS_self _ _ _
    simp only [LegacyRepo.findPackages, hhit]
    simp only [packagesLoop_pair]
    simp [hA, LegacyRepo.withCache]

/-! ### Legacy fixtures and witnesses -/

def w4link : Link := ⟨"https://idx.test/x-1.0a1.whl", "x-1.0a1.whl"⟩

/-- An unstable (prerelease) version fixture. -/
def w4ver : Version := ⟨1, true⟩

/-- An index client whose only page link parses to the unstable `w4ver`. -/
def w4repo : LegacyRepo :=
  ⟨"idx", "https://idx.test", [],
   fun u => ⟨200, u, "<html></html>", []⟩,
   fun _ => [w4link],
   fun _ => some w4ver⟩

def w4dep : Dependency := ⟨"x", none, none, false⟩

def w4pg : Page :=
  mkPage "https://idx.test/x/" "<html></html>" [] w4repo.parseLinks
    w4repo.linkVersionOf

theorem legacy_findPackages_prerelease_fallback_witness :
    lookupS w4repo.matchesCache (cacheKey w4dep) = none ∧
    w4dep.allowsPrereleases = false ∧
    w4pg.versions = [w4ver] ∧
    w4repo.findPackages w4dep =
      .ok ([w4repo.mkPackage "x" w4ver],
           insertS w4repo.matchesCache (cacheKey w4dep) []) := by
  refine ⟨rfl, rfl, rfl, ?_⟩
  exact (legacy_findPackages_prerelease_fallback w4repo w4dep w4pg rfl rfl rfl).1
    rfl (by decide)

theorem legacy_cache_hit_skips_prerelease_fallback_witness :
    w4repo.findPackages w4dep =
      .ok ([w4repo.mkPackage "x" w4ver],
           insertS w4repo.matchesCache (cacheKey w4dep) []) ∧
    (w4repo.withCache
        (insertS w4repo.matchesCache (cacheKey w4dep) [])).findPackages w4dep =
      .ok ([], insertS w4repo.matchesCache (cacheKey w4dep) []) :=
  legacy_cache_hit_skips_prerelease_fallback w4repo w4dep w4pg rfl rfl rfl rfl
    (by decide)

/-- An index client returning a fixed HTTP status for every URL. -/
def statusRepo (status : Nat) : LegacyRepo :=
  ⟨"idx", "https://idx.test", [],
   fun u => ⟨status, u, "<html></html>", []⟩,
   fun _ => [], fun _ => none⟩

/-- **C5** counterexample: status 304 is not a success status and is not
401/403/404, yet `_get` does not raise `RepositoryError` — requests'
`raise_for_status` only raises for 400–599, so the 304 body is parsed as a
page. -/
theorem legacy_get_status_counterexample :
    (statusRepo 304).getPage "/x/" =
      .page (mkPage "https://idx.test/x/" "<html></html>" []
        (statusRepo 304).parseLinks (statusRepo 304).linkVersionOf) ∧
    (statusRepo 304).getPage "/x/" ≠
      .repositoryError 304 "https://idx.test/x/" := by
  refine ⟨rfl, fun h => ?_⟩
  rw [show (statusRepo 304).getPage "/x/" =
      .page (mkPage "https://idx.test/x/" "<html></html>" []
        (statusRepo 304).parseLinks (statusRepo 304).linkVersionOf) from rfl] at h
  cases h

/-- **C5** (amended): `LegacyRepository._get` maps statuses 401, 403 and 404
to an absent page — so `find_packages` (on a cache miss) and
`find_links_for_package` return an empty list without raising — raises
`RepositoryError` wrapping the HTTP error exactly for the remaining statuses
in 400–599, and for every other status (2xx, and any 1xx/3xx that reaches
the client) parses the response body into an `IndexPage` built from the
response's own URL, content and headers. -/
theorem legacy_get_status_contract (repo : LegacyRepo) (endpoint : String) :
    ((((repo.http (repo.url ++ endpoint)).statusCode = 401 ∨
       (repo.http (repo.url ++ endpoint)).statusCode = 403 ∨
       (repo.http (repo.url ++ endpoint)).statusCode = 404) →
        repo.getPage endpoint = .absent) ∧
     (400 ≤ (repo.http (repo.url ++ endpoint)).statusCode →
      (repo.http (repo.url ++ endpoint)).statusCode ≤ 599 →
      (repo.http (repo.url ++ endpoint)).statusCode ≠ 401 →
      (repo.http (repo.url ++ endpoint)).statusCode ≠ 403 →
      (repo.http (repo.url ++ endpoint)).statusCode ≠ 404 →
        repo.getPage endpoint =
          .repositoryError (repo.http (repo.url ++ endpoint)).statusCode
            (repo.url ++ endpoint)) ∧
     (((repo.http (repo.url ++ endpoint)).statusCode < 400 ∨
       600 ≤ (repo.http (repo.url ++ endpoint)).statusCode) →
        repo.getPage endpoint =
          .page (mkPage (repo.http (repo.url ++ endpoint)).url
            (repo.http (repo.url ++ endpoint)).content
            (repo.http (repo.url ++ endpoint)).headers
            repo.parseLinks repo.linkVersionOf))) ∧
    (∀ dep : Dependency,
        lookupS repo.matchesCache (cacheKey dep) = none →
        repo.getPage ("/" ++ dotsToDashes dep.name ++ "/") = .absent →
        repo.findPackages dep = .ok ([], repo.matchesCache)) ∧
    (∀ pkg : Package,
        repo.getPage ("/" ++ dotsToDashes pkg.name ++ "/") = .absent →
        repo.findLinksForPackage pkg = .ok []) := by
  refine ⟨⟨?_, ?_, ?_⟩, ?_, ?_⟩
  · intro h
    rw [LegacyRepo.getPage]
    rcases h with h | h | h <;> simp [h]
  · intro h400 h599 h401 h403 h404
    rw [LegacyRepo.getPage]
    simp [h401, h403, h404, h400, h599]
  · intro h
    rw [LegacyRepo.getPage]
    rcases h with h | h
    · have h401 : (repo.http (repo.url ++ endpoint)).statusCode ≠ 401 := by omega
      have h403 : (repo.http (repo.url ++ endpoint)).statusCode ≠ 403 := by omega
      have h404 : (repo.http (repo.url ++ endpoint)).statusCode ≠ 404 := by omega
      have h400 : ¬(400 ≤ (repo.http (repo.url ++ endpoint)).statusCode) := by omega
      simp [h401, h403, h404, h400]
    · have h401 : (repo.http (repo.url ++ endpoint)).statusCode ≠ 401 := by omega
      have h403 : (repo.http (repo.url ++ endpoint)).statusCode ≠ 403 := by omega
      have h404 : (repo.http (repo.url ++ endpoint)).statusCode ≠ 404 := by omega
      have h599 : ¬((repo.http (repo.url ++ endpoint)).statusCode ≤ 599) := by omega
      simp [h401, h403, h404, h599]
  · intro dep hmiss habs
    simp [LegacyRepo.findPackages, hmiss, habs]
  · intro pkg habs
    simp [LegacyRepo.findLinksForPackage, habs]

theorem legacy_get_status_contract_witness :
    (statusRepo 401).getPage "/x/" = .absent ∧
    (statusRepo 500).getPage "/x/" = .repositoryError 500 "https://idx.test/x/" ∧
    (statusRepo 200).getPage "/x/" =
      .page (mkPage "https://idx.test/x/" "<html></html>" []
        (statusRepo 200).parseLinks (statusRepo 200).linkVersionOf) ∧
    (statusRepo 401).findPackages ⟨"x", none, none, false⟩ = .ok ([], []) ∧
    (statusRepo 401).findLinksForPackage (pkgOf "x" 1) = .ok [] := by
  refine ⟨?_, ?_, ?_, ?_, ?_⟩
  · exact ((legacy_get_status_contract (statusRepo 401) "/x/").1).1 (Or.inl rfl)
  · exact ((legacy_get_status_contract (statusRepo 500) "/x/").1).2.1
      (by decide) (by decide) (by decide) (by decide) (by decide)
  · exact ((legacy_get_status_contract (statusRepo 200) "/x/").1).2.2
      (Or.inl (by decide))
  · exact (legacy_get_status_contract (statusRepo 401) "/x/").2.1
      ⟨"x", none, none, false⟩ rfl rfl
  · exact (legacy_get_status_contract (statusRepo 401) "/x/").2.2 (pkgOf "x" 1) rfl

/-! ### Page.versions dedup (C9) -/

/-- Seen-set deduplication over an already-derived version list (proof-side
restatement of the generator loop of `Page.versions`). -/
def dedupSeen (seen : List Version) : List Version → List Version
  | [] => []
  | v :: vs => if v ∈ seen then dedupSeen seen vs else v :: dedupSeen (v :: seen) vs

theorem versionsAux_eq_dedupSeen (lv : Link → Option Version) (ls : List Link) :
    ∀ seen, versionsAux lv seen ls = dedupSeen seen (ls.filterMap lv) := by
  induction ls with
  | nil => intro seen; rfl
  | cons l t ih =>
    intro seen
    cases h : lv l with
    | none => simp [versionsAux, h, List.filterMap_cons, ih]
    | some v =>
      simp only [versionsAux, h, List.filterMap_cons]
      by_cases hv : v ∈ seen
      · simp [dedupSeen, hv, ih]
      · simp [dedupSeen, hv, ih]

theorem dedupSeen_nodup (l : List Version) :
    ∀ seen, (dedupSeen seen l).Nodup ∧ ∀ x ∈ dedupSeen seen l, x ∉ seen := by
  induction l with
  | nil => intro seen; exact ⟨List.nodup_nil, by simp [dedupSeen]⟩
  | cons v vs ih =>
    intro seen
    by_cases hv : v ∈ seen
    · simpa [dedupSeen, hv] using ih seen
    · simp only [dedupSeen, hv, if_neg, if_false]
      obtain ⟨hnd, hmem⟩ := ih (v :: seen)
      refine ⟨List.Nodup.cons (fun hc => (hmem v hc) (by simp)) hnd, ?_⟩
      intro x hx
      rcases List.mem_cons.mp hx with rfl | hx
      · exact hv
      · intro hxs
        exact (hmem x hx) (by simp [hxs])

theorem dedupSeen_eq_foldl (l : List Version) :
    ∀ seen acc, (∀ x, x ∈ seen ↔ x ∈ acc) →
      l.foldl (fun acc v => if v ∈ acc then acc else acc ++ [v]) acc =
        acc ++ dedupSeen seen l := by
  induction l with
  | nil =>
    intro seen acc h
    simp [dedupSeen]
  | cons v vs ih =>
    intro seen acc h
    by_cases hv : v ∈ seen
    · have hva : v ∈ acc := (h v).mp hv
      simp only [List.foldl_cons, if_pos hva, dedupSeen, if_pos hv]
      exact ih seen acc h
    · have hva : v ∉ acc := fun hc => hv ((h v).mpr hc)
      simp only [List.foldl_cons, if_neg hva, dedupSeen, if_neg hv]
      rw [ih (v :: seen) (acc ++ [v])
        (by intro x; simp [List.mem_cons, List.mem_append, h x, or_comm])]
      simp

/-- Modelled from the spec's words for `versions` ("deduplicate by parsed
Version equality, yield in first-seen order"): fold left over the derived
versions, appending each version not yet emitted. -/
def specFirstSeen (l : List Version) : List Version :=
  l.foldl (fun acc v => if v ∈ acc then acc else acc ++ [v]) []

/-- **C9**: `IndexPage.versions` yields each parsed version at most once —
even when different links encode the same version — and in order of first
appearance among the page's links: the generator output is duplicate-free
and equals the first-seen deduplication of the links' derived versions. -/
theorem page_versions_dedup_first_seen (pg : Page) :
    pg.versions.Nodup ∧
    pg.versions = specFirstSeen (pg.links.filterMap pg.linkVersion) := by
  constructor
  · rw [Page.versions, versionsAux_eq_dedupSeen]
    exact (dedupSeen_nodup _ []).1
  · rw [Page.versions, versionsAux_eq_dedupSeen, specFirstSeen,
      dedupSeen_eq_foldl _ [] [] (by simp)]
    simp

end RPoetry